import Mathlib

/-!
Verification of the vessim microgrid co-simulation kernel.

Powers (W), energies (Wh) and timestamps are modelled over the rationals, so
that every definition is executable and every comparison is exact.  The
repository snapshot ships only documentation, notebooks and deployment files;
the kernel modules (vessim.storage, vessim.signal, vessim.util, the dispatch
policy) are therefore modelled from the specification, as marked on each
definition.  The SimpleLoadBalancingController is embedded from the controller
notebook, which contains its full source.
-/

namespace Vessim

/-- Clamp a rational into the closed interval from lo to hi. -/
def clampQ (lo hi x : ℚ) : ℚ := max lo (min hi x)

/-- Modelled from the spec: the battery data model of vessim.storage
(missing from the sources).  capacity in Wh (> 0), charge_level in Wh,
min_soc in [0, 1), and an optional bound on the (dis)charge power
magnitude. -/
structure SimpleBattery where
  capacity : ℚ
  charge_level : ℚ
  min_soc : ℚ
  max_charge_power : Option ℚ := none
deriving DecidableEq, Repr

/-- Clamp the magnitude of a requested power to an optional bound. -/
def clampPower (limit : Option ℚ) (power : ℚ) : ℚ :=
  match limit with
  | none => power
  | some m => max (-m) (min m power)

/-- Modelled from the spec: SimpleBattery.update (vessim.storage is missing
from the sources) applies a requested power (W, positive = charge) over a
duration in seconds.  The power magnitude is clamped to max_charge_power when
set, the unconstrained energy delta is power * duration / 3600 (Wh), the new
charge level is clamped to [min_soc * capacity, capacity], and the power that
was actually applied is returned with the new battery state. -/
def SimpleBattery.update (b : SimpleBattery) (power duration : ℚ) :
    SimpleBattery × ℚ :=
  let p := clampPower b.max_charge_power power
  let newCharge := clampQ (b.min_soc * b.capacity) b.capacity
    (b.charge_level + p * duration / 3600)
  ({ b with charge_level := newCharge },
   (newCharge - b.charge_level) * 3600 / duration)

/-- Fold a sequence of (power, duration) requests through the battery,
keeping only the battery state. -/
def runUpdates (b : SimpleBattery) (calls : List (ℚ × ℚ)) : SimpleBattery :=
  calls.foldl (fun s c => (s.update c.1 c.2).1) b

/-- Modelled from the spec: the default dispatch policy.  Without storage the
whole delta flows to the grid; with storage the battery is asked to absorb
the delta and the residual p_grid = p_delta - applied is exchanged with the
public grid.  Returns (p_grid, updated storage). -/
def defaultPolicy (p_delta duration : ℚ) :
    Option SimpleBattery → ℚ × Option SimpleBattery
  | none => (p_delta, none)
  | some b =>
    let r := b.update p_delta duration
    (p_delta - r.2, some r.1)

/-- Snapshot of one microgrid step: the aggregated actor power and the grid
exchange power. -/
structure StepResult where
  p_delta : ℚ
  p_grid : ℚ
deriving DecidableEq, Repr

/-- Modelled from the spec: one microgrid step sums the actor powers into
p_delta, lets the default dispatch policy reconcile the delta against the
storage, and records p_delta and p_grid. -/
def microgridStep (actorPowers : List ℚ) (duration : ℚ)
    (storage : Option SimpleBattery) : StepResult × Option SimpleBattery :=
  let p_delta := actorPowers.sum
  let pr := defaultPolicy p_delta duration storage
  ({ p_delta := p_delta, p_grid := pr.1 }, pr.2)

/-- Errors raised by the Clock. -/
inductive ClockError where
  | negativeSeconds
  | beforeSimStart
deriving DecidableEq, Repr

/-- Modelled from the spec: the Clock of vessim.util (missing from the
sources) wraps the reference timestamp sim_start, fixed at construction.
Timestamps are integers (seconds since an epoch). -/
structure Clock where
  sim_start : ℤ
deriving DecidableEq, Repr

/-- Modelled from the spec: convert simulation-relative seconds to an
absolute timestamp; negative seconds are rejected. -/
def Clock.to_time (c : Clock) (seconds : ℤ) : Except ClockError ℤ :=
  if seconds < 0 then .error .negativeSeconds else .ok (c.sim_start + seconds)

/-- Modelled from the spec: convert an absolute timestamp back to
simulation-relative seconds; timestamps before sim_start are rejected. -/
def Clock.to_seconds (c : Clock) (t : ℤ) : Except ClockError ℤ :=
  if t < c.sim_start then .error .beforeSimStart else .ok (t - c.sim_start)

/-- Lower and upper bound of a clamp with ordered bounds. -/
theorem clampQ_mem (lo hi x : ℚ) (h : lo ≤ hi) :
    lo ≤ clampQ lo hi x ∧ clampQ lo hi x ≤ hi := by
  unfold clampQ
  constructor
  · exact le_max_left lo _
  · exact max_le h (min_le_left hi x)

/-- Clamping a value that already satisfies the bounds is the identity. -/
theorem clampQ_eq_self (lo hi x : ℚ) (h1 : lo ≤ x) (h2 : x ≤ hi) :
    clampQ lo hi x = x := by
  unfold clampQ
  rw [min_eq_right h2, max_eq_right h1]

/-- The battery update never changes the configuration fields. -/
theorem update_fields (b : SimpleBattery) (power duration : ℚ) :
    (b.update power duration).1.capacity = b.capacity ∧
    (b.update power duration).1.min_soc = b.min_soc ∧
    (b.update power duration).1.max_charge_power = b.max_charge_power := by
  unfold SimpleBattery.update
  exact ⟨rfl, rfl, rfl⟩

/-- C1: for every microgrid step with a storage attached, the default
dispatch policy satisfies energy conservation: p_grid is exactly
p_delta - applied, hence p_delta = p_grid + applied, where applied is the
power reported by storage.update(p_delta, duration). -/
theorem microgridStep_energy_conservation
    (actorPowers : List ℚ) (duration : ℚ) (b : SimpleBattery) :
    (microgridStep actorPowers duration (some b)).1.p_grid
        = (microgridStep actorPowers duration (some b)).1.p_delta
          - (b.update (microgridStep actorPowers duration (some b)).1.p_delta duration).2 ∧
    (microgridStep actorPowers duration (some b)).1.p_delta
        = (microgridStep actorPowers duration (some b)).1.p_grid
          + (b.update (microgridStep actorPowers duration (some b)).1.p_delta duration).2 ∧
    (microgridStep actorPowers duration (some b)).2
        = some (b.update (microgridStep actorPowers duration (some b)).1.p_delta duration).1 := by
  refine ⟨rfl, ?_, rfl⟩
  simp only [microgridStep, defaultPolicy]
  ring

/-- C2: on a validly constructed battery (capacity > 0, min_soc in [0, 1),
initial charge within bounds), the invariant
min_soc * capacity <= charge_level <= capacity holds after every sequence of
update calls (and hence after every prefix of a sequence, i.e. after every
single call). -/
theorem runUpdates_invariant (b : SimpleBattery) (calls : List (ℚ × ℚ))
    (hcap : 0 < b.capacity) (h0 : 0 ≤ b.min_soc) (h1 : b.min_soc < 1)
    (hlo : b.min_soc * b.capacity ≤ b.charge_level)
    (hhi : b.charge_level ≤ b.capacity) :
    b.min_soc * b.capacity ≤ (runUpdates b calls).charge_level ∧
      (runUpdates b calls).charge_level ≤ b.capacity := by
  induction calls generalizing b with
  | nil => exact ⟨hlo, hhi⟩
  | cons c cs ih =>
    have hbound : b.min_soc * b.capacity ≤ b.capacity := by nlinarith
    have hstep := clampQ_mem (b.min_soc * b.capacity) b.capacity
      (b.charge_level + clampPower b.max_charge_power c.1 * c.2 / 3600) hbound
    have hrw : runUpdates b (c :: cs) = runUpdates ((b.update c.1 c.2).1) cs := rfl
    rw [hrw]
    have hcap' : (0:ℚ) < (b.update c.1 c.2).1.capacity := hcap
    have h0' : (0:ℚ) ≤ (b.update c.1 c.2).1.min_soc := h0
    have h1' : (b.update c.1 c.2).1.min_soc < 1 := h1
    have hlo' : (b.update c.1 c.2).1.min_soc * (b.update c.1 c.2).1.capacity
        ≤ (b.update c.1 c.2).1.charge_level := hstep.1
    have hhi' : (b.update c.1 c.2).1.charge_level ≤ (b.update c.1 c.2).1.capacity := hstep.2
    exact ih _ hcap' h0' h1' hlo' hhi'

/-- C2 witness: the invariant after a concrete charge/discharge sequence on
the 1500 Wh battery of the example scenario. -/
theorem runUpdates_invariant_witness :
    (3/10 : ℚ) * 1500
        ≤ (runUpdates ⟨1500, 1200, 3/10, none⟩ [(300, 300), (-700, 3600)]).charge_level ∧
    (runUpdates ⟨1500, 1200, 3/10, none⟩ [(300, 300), (-700, 3600)]).charge_level ≤ 1500 :=
  runUpdates_invariant ⟨1500, 1200, 3/10, none⟩ [(300, 300), (-700, 3600)]
    (by norm_num) (by norm_num) (by norm_num) (by norm_num) (by norm_num)

/-- The magnitude clamp never increases the magnitude of the request when
the configured bound is nonnegative. -/
theorem abs_clampPower_le (limit : Option ℚ) (power : ℚ)
    (h : ∀ m ∈ limit, 0 ≤ m) : |clampPower limit power| ≤ |power| := by
  cases limit with
  | none => exact le_refl _
  | some m =>
    have hm : 0 ≤ m := h m rfl
    show |max (-m) (min m power)| ≤ |power|
    rw [abs_le]
    constructor
    · exact le_trans (le_min (by linarith [abs_nonneg power]) (neg_abs_le power))
        (le_max_right _ _)
    · exact max_le (by linarith [abs_nonneg power])
        (le_trans (min_le_right m power) (le_abs_self power))

/-- Clamping after a step from a point inside the bounds moves the point by
at most the magnitude of the step. -/
theorem clampQ_sub_le (lo hi x d : ℚ) (h1 : lo ≤ x) (h2 : x ≤ hi) :
    |clampQ lo hi (x + d) - x| ≤ |d| := by
  have hb1 : x - |d| ≤ min x (x + d) :=
    le_min (by linarith [abs_nonneg d]) (by linarith [neg_abs_le d])
  have hb2 : max x (x + d) ≤ x + |d| :=
    max_le (by linarith [abs_nonneg d]) (by linarith [le_abs_self d])
  have hlo2 : min x (x + d) ≤ clampQ lo hi (x + d) := by
    refine le_trans ?_ (le_max_right lo _)
    exact le_min (le_trans (min_le_left _ _) h2) (min_le_right _ _)
  have hhi2 : clampQ lo hi (x + d) ≤ max x (x + d) := by
    exact max_le (le_trans h1 (le_max_left _ _))
      (le_trans (min_le_right hi _) (le_max_right _ _))
  rw [abs_le]
  constructor <;> linarith

/-- C3: the battery update computes the unconstrained energy delta as
power * duration / 3600 Wh after clamping the power magnitude to
max_charge_power when set, clamps the resulting charge level into
[min_soc * capacity, capacity], and returns the power actually applied,
whose magnitude never exceeds the requested one. -/
theorem update_spec (b : SimpleBattery) (power duration : ℚ)
    (hd : 0 < duration)
    (hlo : b.min_soc * b.capacity ≤ b.charge_level)
    (hhi : b.charge_level ≤ b.capacity)
    (hmcp : ∀ m ∈ b.max_charge_power, 0 ≤ m) :
    (b.update power duration).1.charge_level
        = clampQ (b.min_soc * b.capacity) b.capacity
            (b.charge_level + clampPower b.max_charge_power power * duration / 3600) ∧
    (b.update power duration).2
        = ((b.update power duration).1.charge_level - b.charge_level) * 3600 / duration ∧
    |(b.update power duration).2| ≤ |power| := by
  refine ⟨rfl, rfl, ?_⟩
  have h1 : |clampPower b.max_charge_power power| ≤ |power| :=
    abs_clampPower_le _ _ hmcp
  have h2 : |clampQ (b.min_soc * b.capacity) b.capacity
      (b.charge_level + clampPower b.max_charge_power power * duration / 3600)
      - b.charge_level| ≤ |clampPower b.max_charge_power power * duration / 3600| :=
    clampQ_sub_le _ _ _ _ hlo hhi
  show |(clampQ (b.min_soc * b.capacity) b.capacity
      (b.charge_level + clampPower b.max_charge_power power * duration / 3600)
      - b.charge_level) * 3600 / duration| ≤ |power|
  have h3 : |clampPower b.max_charge_power power * duration / 3600|
      = |clampPower b.max_charge_power power| * duration / 3600 := by
    rw [abs_div, abs_mul, abs_of_pos hd]
    norm_num
  have h4 : |(clampQ (b.min_soc * b.capacity) b.capacity
      (b.charge_level + clampPower b.max_charge_power power * duration / 3600)
      - b.charge_level) * 3600 / duration|
      = |clampQ (b.min_soc * b.capacity) b.capacity
          (b.charge_level + clampPower b.max_charge_power power * duration / 3600)
          - b.charge_level| * 3600 / duration := by
    rw [abs_div, abs_mul, abs_of_pos hd]
    norm_num
  rw [h4]
  rw [h3] at h2
  rw [div_le_iff₀ hd]
  have hpow : |clampPower b.max_charge_power power| * duration ≤ |power| * duration :=
    mul_le_mul_of_nonneg_right h1 hd.le
  linarith

/-- C3 witness: charging a 100 Wh battery at 95 Wh with 1000 W for one hour
through a 50 W limit applies only 5 W. -/
theorem update_spec_witness :
    (SimpleBattery.update ⟨100, 95, 0, some 50⟩ 1000 3600).1.charge_level
        = clampQ ((0:ℚ) * 100) 100 (95 + clampPower (some 50) 1000 * 3600 / 3600) ∧
    (SimpleBattery.update ⟨100, 95, 0, some 50⟩ 1000 3600).2
        = ((SimpleBattery.update ⟨100, 95, 0, some 50⟩ 1000 3600).1.charge_level - 95)
          * 3600 / 3600 ∧
    |(SimpleBattery.update ⟨100, 95, 0, some 50⟩ 1000 3600).2| ≤ |(1000 : ℚ)| :=
  update_spec ⟨100, 95, 0, some 50⟩ 1000 3600 (by norm_num) (by norm_num) (by norm_num)
    (by intro m hm; rw [Option.mem_def, Option.some.injEq] at hm; rw [← hm]; norm_num)

/-- C7: the clock round trip to_seconds(to_time(s)) returns s for every
nonnegative s, while negative seconds and timestamps before sim_start are
rejected. -/
theorem clock_roundtrip (c : Clock) (s t : ℤ) :
    (0 ≤ s → (c.to_time s).bind c.to_seconds = .ok s) ∧
    (s < 0 → c.to_time s = .error .negativeSeconds) ∧
    (t < c.sim_start → c.to_seconds t = .error .beforeSimStart) := by
  refine ⟨fun h => ?_, fun h => ?_, fun h => ?_⟩
  · unfold Clock.to_time Clock.to_seconds
    rw [if_neg (not_lt.2 h)]
    show c.to_seconds (c.sim_start + s) = .ok s
    unfold Clock.to_seconds
    rw [if_neg (by omega)]
    congr 1
    omega
  · unfold Clock.to_time
    rw [if_pos h]
  · unfold Clock.to_seconds
    rw [if_pos h]

/-- C7 witness: the round trip at sim_start 1000 with 5 seconds, and the two
rejection branches. -/
theorem clock_roundtrip_witness :
    ((Clock.mk 1000).to_time 5).bind (Clock.mk 1000).to_seconds = .ok 5 ∧
    (Clock.mk 1000).to_time (-3) = .error .negativeSeconds ∧
    (Clock.mk 1000).to_seconds 999 = .error .beforeSimStart :=
  ⟨(clock_roundtrip ⟨1000⟩ 5 0).1 (by norm_num),
   (clock_roundtrip ⟨1000⟩ (-3) 0).2.1 (by norm_num),
   (clock_roundtrip ⟨1000⟩ 0 999).2.2 (by norm_num)⟩

/-- C8: a zero-power update on a battery satisfying the storage invariant
returns the battery unchanged with an applied power of 0, and any number of
repeated zero-power updates never drifts the state. -/
theorem update_zero (b : SimpleBattery) (ds : List ℚ)
    (hlo : b.min_soc * b.capacity ≤ b.charge_level)
    (hhi : b.charge_level ≤ b.capacity)
    (hmcp : ∀ m ∈ b.max_charge_power, 0 ≤ m) :
    (∀ d : ℚ, b.update 0 d = (b, 0)) ∧
    ds.foldl (fun s d => (s.update 0 d).1) b = b := by
  have hp : clampPower b.max_charge_power 0 = 0 := by
    cases hB : b.max_charge_power with
    | none => rfl
    | some m =>
      have hm : 0 ≤ m := hmcp m (by rw [hB]; rfl)
      show max (-m) (min m 0) = 0
      rw [min_eq_right hm, max_eq_right (neg_nonpos.2 hm)]
  have hone : ∀ d : ℚ, b.update 0 d = (b, 0) := by
    intro d
    unfold SimpleBattery.update
    simp only [hp, zero_mul, zero_div, add_zero]
    rw [clampQ_eq_self _ _ _ hlo hhi]
    simp
  refine ⟨hone, ?_⟩
  induction ds with
  | nil => rfl
  | cons d ds ih =>
    rw [List.foldl_cons]
    have hfst : (b.update 0 d).1 = b := by rw [hone d]
    rw [hfst]
    exact ih

/-- C8 witness: two successive zero-power updates on the example battery
leave it unchanged. -/
theorem update_zero_witness :
    SimpleBattery.update ⟨1500, 1200, 3/10, none⟩ 0 60 = (⟨1500, 1200, 3/10, none⟩, 0) ∧
    [60, 300].foldl (fun s d => (s.update 0 d).1) (⟨1500, 1200, 3/10, none⟩ : SimpleBattery)
        = ⟨1500, 1200, 3/10, none⟩ :=
  have h := update_zero ⟨1500, 1200, 3/10, none⟩ [60, 300]
    (by norm_num) (by norm_num) (by intro m hm; cases hm)
  ⟨h.1 60, h.2⟩

/-- Interpolation modes of the historical signal. -/
inductive InterpMode where
  | ffill
  | bfill
  | linear
deriving DecidableEq, Repr

/-- Out-of-range policies of the historical signal; the error-raising policy
is the default. -/
inductive OutOfRangePolicy where
  | raiseErr
  | clampEdge
  | wraparound
deriving DecidableEq, Repr

/-- Errors surfaced by signal queries. -/
inductive SignalError where
  | rangeErr
  | unsupportedForecast
deriving DecidableEq, Repr

/-- One row of the forecast table: the time the forecast was requested, the
target time it speaks about, and the forecast value. -/
structure ForecastEntry where
  req : ℚ
  target : ℚ
  val : ℚ
deriving DecidableEq, Repr

/-- Modelled from the spec: the historical-trace signal of vessim.signal
(missing from the sources).  The actual data of one column is a list of
(timestamp, value) samples with strictly increasing timestamps; the optional
forecast table is keyed by (request time, target time) in lexicographic
order; the interpolation mode and the out-of-range policy are fixed per
instance, the policy defaulting to raising a range error. -/
structure HistoricalSignal where
  actual : List (ℚ × ℚ)
  fcst : Option (List ForecastEntry) := none
  interp : InterpMode := .ffill
  policy : OutOfRangePolicy := .raiseErr
deriving DecidableEq, Repr

/-- The most recent sample at or before time t. -/
def prevSample (data : List (ℚ × ℚ)) (t : ℚ) : Option (ℚ × ℚ) :=
  (data.filter (fun s => s.1 ≤ t)).getLast?

/-- The next sample at or after time t. -/
def nextSample (data : List (ℚ × ℚ)) (t : ℚ) : Option (ℚ × ℚ) :=
  (data.filter (fun s => t ≤ s.1)).head?

/-- Interpolate between the bracketing samples (t0, v0) and (t1, v1). -/
def interpValue (mode : InterpMode) (t0 v0 t1 v1 t : ℚ) : ℚ :=
  match mode with
  | .ffill => v0
  | .bfill => v1
  | .linear => v0 + (v1 - v0) * (t - t0) / (t1 - t0)

/-- Point query for a time already inside the span of the data: locate the
bracketing samples; a time lying exactly on a sample returns that value
regardless of mode, otherwise the configured interpolation rule applies. -/
def nowInRange (sig : HistoricalSignal) (t : ℚ) : Except SignalError ℚ :=
  match prevSample sig.actual t, nextSample sig.actual t with
  | some s0, some s1 =>
    if s0.1 = t then .ok s0.2
    else if s1.1 = t then .ok s1.2
    else .ok (interpValue sig.interp s0.1 s0.2 s1.1 s1.2 t)
  | _, _ => .error .rangeErr

/-- Map a time into the data span by periodic wraparound over the total
span, for the wraparound out-of-range policy. -/
def wrapTime (tf tl t : ℚ) : ℚ :=
  tf + ((t - tf) - (tl - tf) * ((⌊(t - tf) / (tl - tf)⌋ : ℤ) : ℚ))

/-- Modelled from the spec: HistoricalSignal.now answers a point query.  A
time before the first or after the last sample is handled by the configured
out-of-range policy (raise a range error by default, clamp to the nearest
edge value, or wrap periodically); otherwise the bracketing samples are
interpolated. -/
def HistoricalSignal.now (sig : HistoricalSignal) (t : ℚ) : Except SignalError ℚ :=
  match sig.actual.head?, sig.actual.getLast? with
  | some f, some l =>
    if t < f.1 ∨ l.1 < t then
      match sig.policy with
      | .raiseErr => .error .rangeErr
      | .clampEdge => .ok (if t < f.1 then f.2 else l.2)
      | .wraparound =>
        if f.1 = l.1 then .ok f.2
        else nowInRange sig (wrapTime f.1 l.1 t)
    else nowInRange sig t
  | _, _ => .error .rangeErr

/-- Maximum of a list of rationals. -/
def listMax : List ℚ → Option ℚ
  | [] => none
  | x :: xs =>
    match listMax xs with
    | none => some x
    | some m => some (max x m)

/-- The most recent forecast request time at or before startTime. -/
def latestRequest (table : List ForecastEntry) (startTime : ℚ) : Option ℚ :=
  listMax ((table.map ForecastEntry.req).filter (fun r => r ≤ startTime))

/-- The entries of the forecast request at time r whose target time lies in
[startTime, endTime], as (target, value) pairs in table order. -/
def forecastList (table : List ForecastEntry) (startTime endTime r : ℚ) :
    List (ℚ × ℚ) :=
  (table.filter (fun e => e.req = r ∧ startTime ≤ e.target ∧ e.target ≤ endTime)).map
    (fun e => (e.target, e.val))

/-- Modelled from the spec: HistoricalSignal.forecast selects the most
recent forecast request time at or before startTime and returns the entries
of that request whose target time lies in [startTime, endTime]; without a
forecast table the operation is unsupported, and without an eligible request
the result is empty. -/
def HistoricalSignal.forecast (sig : HistoricalSignal) (startTime endTime : ℚ) :
    Except SignalError (List (ℚ × ℚ)) :=
  match sig.fcst with
  | none => .error .unsupportedForecast
  | some table =>
    match latestRequest table startTime with
    | none => .ok []
    | some r => .ok (forecastList table startTime endTime r)

/-- C9: with the default error-raising out-of-range policy, a query strictly
before the first or strictly after the last sample returns a range error to
the caller instead of a substituted value. -/
theorem now_out_of_range (sig : HistoricalSignal) (t : ℚ) (f l : ℚ × ℚ)
    (hpol : sig.policy = .raiseErr)
    (hf : sig.actual.head? = some f) (hl : sig.actual.getLast? = some l)
    (hout : t < f.1 ∨ l.1 < t) :
    sig.now t = .error .rangeErr := by
  unfold HistoricalSignal.now
  simp only [hf, hl, hpol]
  rw [if_pos hout]

/-- C9 witness: a signal built with the default policy rejects a query after
its last sample. -/
theorem now_out_of_range_witness :
    ({ actual := [((0:ℚ), (10:ℚ)), (100, 20)] } : HistoricalSignal).policy
        = .raiseErr ∧
    ({ actual := [((0:ℚ), (10:ℚ)), (100, 20)] } : HistoricalSignal).now 150
        = .error .rangeErr :=
  ⟨rfl,
   now_out_of_range { actual := [((0:ℚ), (10:ℚ)), (100, 20)] } 150 (0, 10) (100, 20)
     rfl rfl rfl (by norm_num)⟩

/-- On strictly sorted data, the most recent sample at or before an exact
sample timestamp is that sample. -/
theorem prevSample_at_mem (l : List (ℚ × ℚ)) (t v : ℚ)
    (hs : l.Pairwise (fun a b => a.1 < b.1)) (hm : (t, v) ∈ l) :
    prevSample l t = some (t, v) := by
  unfold prevSample
  induction l with
  | nil => cases hm
  | cons a l ih =>
    rcases List.mem_cons.mp hm with h | hm'
    · have ha : (decide (a.1 ≤ t)) = true := by
        rw [← h]
        exact decide_eq_true le_rfl
      rw [List.filter_cons, if_pos ha]
      have hnil : l.filter (fun s => s.1 ≤ t) = [] := by
        rw [List.filter_eq_nil_iff]
        intro b hb
        have hab : a.1 < b.1 := List.rel_of_pairwise_cons hs hb
        rw [← h] at hab
        simp only [decide_eq_true_eq]
        linarith
      rw [hnil, ← h]
      rfl
    · have hat : a.1 < t := by
        have := List.rel_of_pairwise_cons hs hm'
        exact this
      have ha : (decide (a.1 ≤ t)) = true := decide_eq_true hat.le
      rw [List.filter_cons, if_pos ha]
      have htail := ih (List.Pairwise.of_cons hs) hm'
      rcases hft : l.filter (fun s => s.1 ≤ t) with _ | ⟨b, bs⟩
      · rw [hft] at htail
        cases htail
      · rw [hft, List.getLast?_cons_cons]
        rw [hft] at htail
        exact htail

/-- On strictly sorted data, the next sample at or after an exact sample
timestamp is that sample. -/
theorem nextSample_at_mem (l : List (ℚ × ℚ)) (t v : ℚ)
    (hs : l.Pairwise (fun a b => a.1 < b.1)) (hm : (t, v) ∈ l) :
    nextSample l t = some (t, v) := by
  unfold nextSample
  induction l with
  | nil => cases hm
  | cons a l ih =>
    rcases List.mem_cons.mp hm with h | hm'
    · have ha : (decide (t ≤ a.1)) = true := by
        rw [← h]
        exact decide_eq_true le_rfl
      rw [List.filter_cons, if_pos ha, ← h]
      rfl
    · have hat : a.1 < t := List.rel_of_pairwise_cons hs hm'
      have ha : (decide (t ≤ a.1)) = false := decide_eq_false (not_le.2 hat)
      rw [List.filter_cons, if_neg (by rw [ha]; exact Bool.false_ne_true)]
      exact ih (List.Pairwise.of_cons hs) hm'

/-- On strictly sorted data the head timestamp is a lower bound for every
member. -/
theorem sorted_head_le (l : List (ℚ × ℚ)) (x f : ℚ × ℚ)
    (hs : l.Pairwise (fun a b => a.1 < b.1)) (hm : x ∈ l)
    (hf : l.head? = some f) : f.1 ≤ x.1 := by
  cases l with
  | nil => cases hm
  | cons a rest =>
    have hfa : f = a := by
      rw [List.head?_cons] at hf
      exact (Option.some.injEq _ _).mp hf.symm
    subst hfa
    rcases List.mem_cons.mp hm with h | hm'
    · rw [h]
    · exact (List.rel_of_pairwise_cons hs hm').le

/-- On strictly sorted data the last timestamp is an upper bound for every
member. -/
theorem sorted_le_getLast (l : List (ℚ × ℚ)) (x g : ℚ × ℚ)
    (hs : l.Pairwise (fun a b => a.1 < b.1)) (hm : x ∈ l)
    (hg : l.getLast? = some g) : x.1 ≤ g.1 := by
  induction l with
  | nil => cases hm
  | cons a rest ih =>
    cases rest with
    | nil =>
      have hga : g = a := by
        rw [List.getLast?_singleton] at hg
        exact (Option.some.injEq _ _).mp hg.symm
      rcases List.mem_cons.mp hm with h | hm'
      · rw [h, hga]
      · cases hm'
    | cons b rest' =>
      rw [List.getLast?_cons_cons] at hg
      have hgmem : g ∈ b :: rest' := by
        have hne : (b :: rest' : List (ℚ × ℚ)) ≠ [] := by simp
        have := List.getLast?_eq_getLast (b :: rest') hne
        rw [this] at hg
        have hgeq : g = (b :: rest').getLast hne :=
          ((Option.some.injEq _ _).mp hg.symm)
        rw [hgeq]
        exact List.getLast_mem hne
      rcases List.mem_cons.mp hm with h | hm'
      · have : a.1 < g.1 := List.rel_of_pairwise_cons hs hgmem
        rw [h]
        exact this.le
      · exact ih (List.Pairwise.of_cons hs) hm' hg

/-- On strictly sorted data a query at a timestamp lying exactly on a
sample returns that sample value, for every mode and policy. -/
theorem now_eq_of_mem (sig : HistoricalSignal) (t v : ℚ)
    (hsorted : sig.actual.Pairwise (fun a b => a.1 < b.1))
    (hmem : (t, v) ∈ sig.actual) :
    sig.now t = .ok v := by
  have hne : sig.actual ≠ [] := by
    intro h
    rw [h] at hmem
    cases hmem
  obtain ⟨f, hf⟩ : ∃ f, sig.actual.head? = some f := by
    cases hA : sig.actual with
    | nil => exact absurd hA hne
    | cons a rest => exact ⟨a, rfl⟩
  obtain ⟨g, hg⟩ : ∃ g, sig.actual.getLast? = some g := by
    cases hA : sig.actual with
    | nil => exact absurd hA hne
    | cons a rest =>
      exact ⟨(a :: rest).getLast (by simp), List.getLast?_eq_getLast _ _⟩
  have hfle : f.1 ≤ t := sorted_head_le sig.actual (t, v) f hsorted hmem hf
  have hlge : t ≤ g.1 := sorted_le_getLast sig.actual (t, v) g hsorted hmem hg
  unfold HistoricalSignal.now
  simp only [hf, hg]
  rw [if_neg (by push_neg; exact ⟨hfle, hlge⟩)]
  unfold nowInRange
  rw [prevSample_at_mem sig.actual t v hsorted hmem,
    nextSample_at_mem sig.actual t v hsorted hmem]
  simp

/-- C6: for every historical signal with strictly increasing sample
timestamps, every interpolation mode and every out-of-range policy, a query
at a timestamp lying exactly on a sample (the last sample included) returns
that sample value. -/
theorem now_at_sample (sig : HistoricalSignal) (t v : ℚ)
    (hsorted : sig.actual.Pairwise (fun a b => a.1 < b.1))
    (hmem : (t, v) ∈ sig.actual) :
    sig.now t = .ok v :=
  now_eq_of_mem sig t v hsorted hmem

/-- C6 witness: the query at exactly the last sample timestamp returns the
last sample value under all three interpolation modes. -/
theorem now_at_sample_witness :
    ({ actual := [((0:ℚ), (10:ℚ)), (100, 20)], interp := .ffill } :
        HistoricalSignal).now 100 = .ok 20 ∧
    ({ actual := [((0:ℚ), (10:ℚ)), (100, 20)], interp := .bfill } :
        HistoricalSignal).now 100 = .ok 20 ∧
    ({ actual := [((0:ℚ), (10:ℚ)), (100, 20)], interp := .linear } :
        HistoricalSignal).now 100 = .ok 20 :=
  ⟨now_at_sample _ 100 20 (by norm_num) (by simp),
   now_at_sample _ 100 20 (by norm_num) (by simp),
   now_at_sample _ 100 20 (by norm_num) (by simp)⟩

/-- A historical signal holding exactly the two samples (t0, 10) and
(t1, 20), with the given interpolation mode. -/
def twoSampleSig (t0 t1 : ℚ) (mode : InterpMode) : HistoricalSignal :=
  { actual := [(t0, 10), (t1, 20)], interp := mode }

/-- A query strictly between the two samples of the two-sample signal
evaluates the configured interpolation rule on the bracketing samples. -/
theorem twoSampleSig_now_strict (t0 t1 t : ℚ) (mode : InterpMode)
    (h0 : t0 < t) (h1 : t < t1) :
    (twoSampleSig t0 t1 mode).now t = .ok (interpValue mode t0 10 t1 20 t) := by
  simp only [twoSampleSig, HistoricalSignal.now, List.head?_cons,
    List.getLast?_cons_cons, List.getLast?_singleton]
  rw [if_neg (by push_neg; exact ⟨h0.le, h1.le⟩)]
  simp only [nowInRange, prevSample, nextSample, List.filter_cons, List.filter_nil,
    decide_eq_true h0.le, decide_eq_false (not_le.2 h1),
    decide_eq_false (not_le.2 h0), decide_eq_true h1.le]
  simp only [Bool.false_eq_true, if_false, if_true, List.getLast?_singleton,
    List.head?_cons]
  rw [if_neg (show ¬((t0, (10:ℚ)).1 = t) from ne_of_lt h0),
    if_neg (show ¬((t1, (20:ℚ)).1 = t) from ne_of_gt h1)]

/-- C5: on the signal with samples (t0, 10) and (t1, 20), linear
interpolation at the midpoint returns 15, forward fill at any point of
[t0, t1) returns 10, and backward fill at any point strictly inside the
interval returns 20. -/
theorem now_two_samples (t0 t1 t : ℚ) (hlt : t0 < t1) :
    ((twoSampleSig t0 t1 .linear).now ((t0 + t1) / 2) = .ok 15) ∧
    (t0 ≤ t → t < t1 → (twoSampleSig t0 t1 .ffill).now t = .ok 10) ∧
    (t0 < t → t < t1 → (twoSampleSig t0 t1 .bfill).now t = .ok 20) := by
  have hne : t1 - t0 ≠ 0 := sub_ne_zero.2 (ne_of_gt hlt)
  refine ⟨?_, fun ha hb => ?_, fun ha hb => ?_⟩
  · have hm0 : t0 < (t0 + t1) / 2 := by linarith
    have hm1 : (t0 + t1) / 2 < t1 := by linarith
    have hval : interpValue .linear t0 10 t1 20 ((t0 + t1) / 2) = 15 := by
      simp only [interpValue]
      field_simp
      ring
    rw [twoSampleSig_now_strict t0 t1 _ .linear hm0 hm1, hval]
  · rcases eq_or_lt_of_le ha with heq | hlt0
    · refine now_eq_of_mem _ t 10 ?_ ?_
      · show List.Pairwise (fun a b => a.1 < b.1) [(t0, (10:ℚ)), (t1, 20)]
        refine List.Pairwise.cons ?_ (List.pairwise_singleton _ _)
        intro b hb
        rw [List.mem_singleton] at hb
        rw [hb]
        exact hlt
      · simp [twoSampleSig, ← heq]
    · exact twoSampleSig_now_strict t0 t1 t .ffill hlt0 hb
  · exact twoSampleSig_now_strict t0 t1 t .bfill ha hb

/-- C5 witness: samples at times 0 and 100; the midpoint query under linear
mode gives 15, and a query at 30 gives 10 under forward fill and 20 under
backward fill. -/
theorem now_two_samples_witness :
    ((twoSampleSig 0 100 .linear).now (((0:ℚ) + 100) / 2) = .ok 15) ∧
    ((twoSampleSig 0 100 .ffill).now 30 = .ok 10) ∧
    ((twoSampleSig 0 100 .bfill).now 30 = .ok 20) :=
  have h := now_two_samples 0 100 30 (by norm_num)
  ⟨h.1, h.2.1 (by norm_num) (by norm_num), h.2.2 (by norm_num) (by norm_num)⟩

/-- Every element of a list is bounded by its listMax, which is itself an
element. -/
theorem listMax_spec (l : List ℚ) :
    (listMax l = none ↔ l = []) ∧
    (∀ m, listMax l = some m → m ∈ l ∧ ∀ x ∈ l, x ≤ m) := by
  induction l with
  | nil =>
    refine ⟨by simp [listMax], fun m hm => ?_⟩
    cases hm
  | cons a l ih =>
    constructor
    · constructor
      · intro h
        unfold listMax at h
        rcases hA : listMax l with _ | m
        · rw [hA] at h
          cases h
        · rw [hA] at h
          cases h
      · intro h
        cases h
    · intro m hm
      unfold listMax at hm
      rcases hA : listMax l with _ | m'
      · rw [hA] at hm
        have hml : l = [] := (ih.1).mp hA
        have ham : a = m := by
          rw [Option.some.injEq] at hm
          exact hm
        subst ham
        subst hml
        exact ⟨List.mem_singleton_self a, by
          intro x hx
          rw [List.mem_singleton] at hx
          rw [hx]⟩
      · rw [hA] at hm
        have ham : max a m' = m := by
          rw [Option.some.injEq] at hm
          exact hm
        have hrec := ih.2 m' hA
        constructor
        · rcases max_cases a m' with ⟨he, _⟩ | ⟨he, _⟩
          · rw [← ham, he]
            exact List.mem_cons_self a l
          · rw [← ham, he]
            exact List.mem_cons_of_mem a hrec.1
        · intro x hx
          rcases List.mem_cons.mp hx with h | h
          · rw [h, ← ham]
            exact le_max_left a m'
          · rw [← ham]
            exact le_trans (hrec.2 x h) (le_max_right a m')

/-- C4: with a forecast table present, forecast(start, end) selects the
single most recent request time at or before start and returns exactly the
entries of that request whose target time lies in [start, end], in ascending
target-time order; with no eligible request it returns the empty list. -/
theorem forecast_spec (sig : HistoricalSignal) (table : List ForecastEntry)
    (startTime endTime : ℚ)
    (htab : sig.fcst = some table)
    (hsorted : table.Pairwise
      (fun a b => a.req < b.req ∨ (a.req = b.req ∧ a.target < b.target))) :
    ((∀ e ∈ table, ¬ e.req ≤ startTime) →
        sig.forecast startTime endTime = .ok []) ∧
    (∀ r, latestRequest table startTime = some r →
      r ≤ startTime ∧
      (∃ e ∈ table, e.req = r) ∧
      (∀ e ∈ table, e.req ≤ startTime → e.req ≤ r) ∧
      sig.forecast startTime endTime = .ok (forecastList table startTime endTime r) ∧
      (forecastList table startTime endTime r).Pairwise (fun a b => a.1 < b.1) ∧
      (∀ p : ℚ × ℚ, p ∈ forecastList table startTime endTime r ↔
        ∃ e ∈ table, e.req = r ∧ startTime ≤ e.target ∧ e.target ≤ endTime ∧
          p = (e.target, e.val))) := by
  constructor
  · intro hno
    have hfil : (table.map ForecastEntry.req).filter (fun r => r ≤ startTime) = [] := by
      rw [List.filter_eq_nil_iff]
      intro x hx
      rcases List.mem_map.mp hx with ⟨e, he, hex⟩
      simp only [decide_eq_true_eq]
      rw [← hex]
      exact hno e he
    have hlat : latestRequest table startTime = none := by
      unfold latestRequest
      rw [hfil]
      rfl
    simp only [HistoricalSignal.forecast, htab, hlat]
  · intro r hr
    have hspec := listMax_spec
      ((table.map ForecastEntry.req).filter (fun x => x ≤ startTime))
    have hmem := (hspec.2 r hr).1
    have hmax := (hspec.2 r hr).2
    have hrle : r ≤ startTime := by
      have := (List.mem_filter.mp hmem).2
      simpa using this
    have hex : ∃ e ∈ table, e.req = r := by
      rcases List.mem_map.mp (List.mem_filter.mp hmem).1 with ⟨e, he, hex⟩
      exact ⟨e, he, hex⟩
    refine ⟨hrle, hex, ?_, ?_, ?_, ?_⟩
    · intro e he hele
      refine hmax e.req (List.mem_filter.mpr ⟨List.mem_map_of_mem _ he, ?_⟩)
      simpa using hele
    · simp only [HistoricalSignal.forecast, htab, hr]
    · unfold forecastList
      rw [List.pairwise_map]
      have hsub : table.filter
          (fun e => e.req = r ∧ startTime ≤ e.target ∧ e.target ≤ endTime)
          |>.Pairwise
            (fun a b => a.req < b.req ∨ (a.req = b.req ∧ a.target < b.target)) :=
        List.Pairwise.sublist (List.filter_sublist _) hsorted
      refine hsub.imp_of_mem ?_
      intro a b hamem hbmem hab
      have hareq : a.req = r := by
        have := List.of_mem_filter hamem
        simp only [decide_eq_true_eq] at this
        exact this.1
      have hbreq : b.req = r := by
        have := List.of_mem_filter hbmem
        simp only [decide_eq_true_eq] at this
        exact this.1
      rcases hab with h | h
      · rw [hareq, hbreq] at h
        exact absurd h (lt_irrefl r)
      · exact h.2
    · intro p
      unfold forecastList
      simp only [List.mem_map, List.mem_filter, decide_eq_true_eq]
      constructor
      · rintro ⟨e, ⟨he, hq, h1, h2⟩, hep⟩
        exact ⟨e, he, hq, h1, h2, hep.symm⟩
      · rintro ⟨e, he, hq, h1, h2, hep⟩
        exact ⟨e, ⟨he, hq, h1, h2⟩, hep.symm⟩

/-- The forecast table of the running example: requests at times 0, 30 and
60 covering overlapping horizons. -/
def tbl40 : List ForecastEntry :=
  [⟨0, 30, 115⟩, ⟨0, 60, 108⟩, ⟨30, 60, 109⟩, ⟨30, 90, 102⟩,
   ⟨60, 90, 101⟩, ⟨60, 120, 88⟩]

/-- A historical signal equipped with the example forecast table. -/
def sig40 : HistoricalSignal := { actual := [(0, 100)], fcst := some tbl40 }

/-- C4 witness: a query starting at 40 selects the request of time 30 only
and returns its in-range entries in ascending target order. -/
theorem forecast_spec_witness :
    latestRequest tbl40 40 = some 30 ∧
    (30 : ℚ) ≤ 40 ∧
    sig40.forecast 40 90 = .ok (forecastList tbl40 40 90 30) ∧
    forecastList tbl40 40 90 30 = [(60, 109), (90, 102)] := by
  have h := (forecast_spec sig40 tbl40 40 90 rfl (by decide)).2 30 (by decide)
  exact ⟨by decide, h.1, h.2.2.2.1, by decide⟩

/-- A mock power meter: measure() reports the stored power p and
set_power(value) overwrites it. -/
structure MockPowerMeter where
  p : ℚ
deriving DecidableEq, Repr

/-- The current power reading of a mock power meter. -/
def MockPowerMeter.measure (m : MockPowerMeter) : ℚ := m.p

/-- Overwrite the power setpoint of a mock power meter. -/
def MockPowerMeter.set_power (m : MockPowerMeter) (value : ℚ) : MockPowerMeter :=
  { m with p := value }

/-- The load-balancing controller of the controller notebook, holding the
maximum total load adjustment per step and the meters it controls. -/
structure SimpleLoadBalancingController where
  max_load_adjustment : ℚ
  power_meters : List MockPowerMeter
deriving DecidableEq, Repr

/-- Embedded from the controller notebook: step computes
adjustment_per_meter = min(|p_delta|, max_load_adjustment) / len(power_meters)
and sets every meter to current + adjustment when p_delta < 0, and to
max(0, current - adjustment) otherwise.  The Python method mutates the
meters in place and ignores its time and actor_infos arguments; here the
updated meter list is returned. -/
def SimpleLoadBalancingController.step (c : SimpleLoadBalancingController)
    (p_delta : ℚ) : List MockPowerMeter :=
  let adjustment_per_meter :=
    min (abs p_delta) c.max_load_adjustment / (c.power_meters.length : ℚ)
  c.power_meters.map (fun power_meter =>
    let current_power := power_meter.measure
    if p_delta < 0 then power_meter.set_power (current_power + adjustment_per_meter)
    else power_meter.set_power (max 0 (current_power - adjustment_per_meter)))

/-- C10 counterexample: a controller with max_load_adjustment = -1, one
meter at power 0 and p_delta = -5 sets the meter to the negative power -1,
so nonnegativity of the new powers fails without an assumption on
max_load_adjustment. -/
theorem step_nonneg_cex :
    SimpleLoadBalancingController.step ⟨-1, [⟨0⟩]⟩ (-5) = [⟨-1⟩] ∧
    ((-1 : ℚ) < 0) := by
  have habs : |(-5 : ℚ)| = 5 := by
    rw [abs_of_neg] <;> norm_num
  refine ⟨?_, by norm_num⟩
  simp only [SimpleLoadBalancingController.step, MockPowerMeter.measure,
    MockPowerMeter.set_power, List.map_cons, List.map_nil, List.length_cons,
    List.length_nil, habs, if_pos (show (-5 : ℚ) < 0 by norm_num)]
  rw [min_eq_right (show (-1 : ℚ) ≤ 5 by norm_num)]
  norm_num

/-- C10 (amended with a nonnegative max_load_adjustment): a step on a
non-empty meter list whose current powers are nonnegative yields only
nonnegative new powers, the shared adjustment being nonnegative. -/
theorem step_nonneg (c : SimpleLoadBalancingController) (p_delta : ℚ)
    (hmla : 0 ≤ c.max_load_adjustment)
    (_hne : c.power_meters ≠ [])
    (hcur : ∀ m ∈ c.power_meters, 0 ≤ m.p) :
    ∀ m ∈ c.step p_delta, 0 ≤ m.p := by
  intro m hm
  unfold SimpleLoadBalancingController.step at hm
  simp only [List.mem_map] at hm
  rcases hm with ⟨w, hw, hwm⟩
  have hadj : 0 ≤ min (abs p_delta) c.max_load_adjustment
      / (c.power_meters.length : ℚ) := by
    apply div_nonneg
    · exact le_min (abs_nonneg _) hmla
    · exact Nat.cast_nonneg _
  have hwp : 0 ≤ w.p := hcur w hw
  rcases lt_or_le p_delta 0 with hpd | hpd
  · rw [if_pos hpd] at hwm
    rw [← hwm]
    show 0 ≤ w.measure + _
    exact add_nonneg hwp hadj
  · rw [if_neg (not_lt.2 hpd)] at hwm
    rw [← hwm]
    exact le_max_left 0 _

/-- C10 witness: the notebook scenario with max_load_adjustment 2 and
meters at 3 and 7 under a deficit keeps the meter set to power 4
nonnegative. -/
theorem step_nonneg_witness :
    (0 : ℚ) ≤ 2 ∧ 0 ≤ (MockPowerMeter.mk 4).p := by
  have habs : |(-5 : ℚ)| = 5 := by
    rw [abs_of_neg] <;> norm_num
  have hstep : SimpleLoadBalancingController.step ⟨2, [⟨3⟩, ⟨7⟩]⟩ (-5)
      = [⟨4⟩, ⟨8⟩] := by
    simp only [SimpleLoadBalancingController.step, MockPowerMeter.measure,
      MockPowerMeter.set_power, List.map_cons, List.map_nil, List.length_cons,
      List.length_nil, habs, if_pos (show (-5 : ℚ) < 0 by norm_num)]
    rw [min_eq_right (show (2 : ℚ) ≤ 5 by norm_num)]
    norm_num
  have hmem : (⟨4⟩ : MockPowerMeter) ∈
      SimpleLoadBalancingController.step ⟨2, [⟨3⟩, ⟨7⟩]⟩ (-5) := by
    rw [hstep]
    exact List.mem_cons_self _ _
  have hcur : ∀ m ∈ ([⟨3⟩, ⟨7⟩] : List MockPowerMeter), 0 ≤ m.p := by
    intro m hm
    rcases List.mem_cons.mp hm with h | h
    · rw [h]
      norm_num
    · rw [List.mem_singleton] at h
      rw [h]
      norm_num
  exact ⟨by norm_num,
    step_nonneg ⟨2, [⟨3⟩, ⟨7⟩]⟩ (-5) (by norm_num) (by simp) hcur ⟨4⟩ hmem⟩

end Vessim
